import Mathlib

/-!
Verification of the stop-sequence matcher and generation-adapter logic of
`llmplus/Models/Cores/huggingface_core.py` against its specification.

Text is modelled as `List Char`, token ids as `Int`.  A tokenizer is an
abstract pair of total functions `encode`/`decode`, matching the external
tokenizer capability the code calls into.  Fallible Python code (indexing
into a possibly-empty list, an uncaught backend exception) is modelled with
`Option`/`Except`.
-/

/-- Text, modelled as a list of characters. -/
abbrev Str := List Char

/-- External tokenizer capability: `encode(text, add_special_tokens=False)`
and `decode(ids)` as used by `KeywordsStoppingCriteria`. -/
structure Tok where
  encode : Str → List Int
  decode : List Int → Str

/-- Python slice `ids[:-i]` as written in the second loop of
`KeywordsStoppingCriteria.get_min_ids`: for `i = 0` Python evaluates
`ids[:0]`, the empty list; for `i ≥ 1` it is the list without its last `i`
elements. -/
def pyTailSlice (ids : List Int) (i : Nat) : List Int :=
  if i = 0 then [] else ids.take (ids.length - i)

/-- Python slice `input_list[-last:]` as used in
`KeywordsStoppingCriteria.__call__`: for `last = 0` Python evaluates
`input_list[0:]`, the whole list; for `last ≥ 1` it is the last `last`
elements. -/
def pyLastSlice (l : List Int) (k : Nat) : List Int :=
  if k = 0 then l else l.drop (l.length - k)

/-- First loop of `get_min_ids`: candidates `ids[i:]` for increasing `i`,
kept while the decoded text still equals the stop word (the loop breaks at
the first mismatch). -/
def headCandidates (tk : Tok) (word : Str) (ids : List Int) : List (List Int) :=
  ((List.range ids.length).map (fun i => ids.drop i)).takeWhile
    (fun t => tk.decode t == word)

/-- Second loop of `get_min_ids`: candidates `ids[:-i]` for increasing `i`,
kept while the decoded text still equals the stop word (the loop breaks at
the first mismatch; note that at `i = 0` the slice is empty). -/
def tailCandidates (tk : Tok) (word : Str) (ids : List Int) : List (List Int) :=
  ((List.range ids.length).map (fun i => pyTailSlice ids i)).takeWhile
    (fun t => tk.decode t == word)

/-- The `effective` list built by `get_min_ids` (the Python code stores
pairs `(text, temp)` but `text` always equals `word` when appended, so only
the id lists are kept). -/
def effectiveCandidates (tk : Tok) (word : Str) : List (List Int) :=
  let ids := tk.encode word
  headCandidates tk word ids ++ tailCandidates tk word ids

/-- Stable insertion of an id list into a list sorted by length (an earlier
element wins a tie, as in Python's stable `list.sort`). -/
def insertByLen (x : List Int) : List (List Int) → List (List Int)
  | [] => [x]
  | y :: ys => if x.length < y.length then x :: y :: ys else y :: insertByLen x ys

/-- Stable sort by length, matching `effective.sort(key=lambda x: len(x[1]))`. -/
def sortByLen (l : List (List Int)) : List (List Int) :=
  l.foldr insertByLen []

/-- `KeywordsStoppingCriteria.get_min_ids`: sort the candidates by length
and take the first.  `effective[0]` on an empty list raises in Python,
modelled by `none`. -/
def getMinIds (tk : Tok) (word : Str) : Option (List Int) :=
  (sortByLen (effectiveCandidates tk word)).head?

/-- The body of the constructor's
`list(map(lambda x: self.get_min_ids(x), stop_words))`: any raising
`get_min_ids` call aborts the construction. -/
def mkStopIds (tk : Tok) : List Str → Option (List (List Int))
  | [] => some []
  | w :: ws =>
    match getMinIds tk w, mkStopIds tk ws with
    | some i, some is => some (i :: is)
    | _, _ => none

/-- One comparison of `KeywordsStoppingCriteria.__call__`: with
`last = len(i)`, check `len(input_list) >= last` and then compare
`input_list[-last:]` with `i`. -/
def kwsCheck (input : List Int) (i : List Int) : Bool :=
  if i.length ≤ input.length then pyLastSlice input i.length == i else false

/-- `KeywordsStoppingCriteria.__call__`: return `True` as soon as one of the
stored stop-id lists passes the suffix comparison, else `False`. -/
def kwsCall (stopIds : List (List Int)) (input : List Int) : Bool :=
  stopIds.any (kwsCheck input)

/-- Concrete tokenizer exhibiting a stop word whose naive encoding admits a
strictly shorter tail-trimmed prefix that decodes exactly: the naive
encoding of `"ab"` is `[1, 2, 3]` and both `[1, 2, 3]` and `[1, 2]` decode
to `"ab"`. -/
def tok1 : Tok where
  encode := fun w => if w = ['a', 'b'] then [1, 2, 3] else []
  decode := fun ids =>
    if ids = [1, 2, 3] then ['a', 'b']
    else if ids = [1, 2] then ['a', 'b']
    else []

/-- Concrete well-behaved tokenizer: `"ab"` encodes to `[5, 6]` and only
`[5, 6]` decodes back to `"ab"`. -/
def tok2 : Tok where
  encode := fun w => if w = ['a', 'b'] then [5, 6] else []
  decode := fun ids => if ids = [5, 6] then ['a', 'b'] else []

/-- Concrete degenerate tokenizer: no id list decodes to any stop word, so
every candidate set is empty. -/
def tok3 : Tok where
  encode := fun _ => [7]
  decode := fun _ => []

/-- Python's `str.removeprefix` as used in the non-streaming branch of
`HuggingfaceLLM._call`: drop `prompt` from the front of the raw decoded
output when it is a prefix, otherwise leave the text unchanged. -/
def dropPromptEcho (raw prompt : Str) : Str :=
  if prompt.isPrefixOf raw then raw.drop prompt.length else raw

/-- Does some stop string start at the front of `t`? -/
def stopsAt (stops : List Str) (t : Str) : Bool :=
  stops.any fun s => s.isPrefixOf t

/-- Index of the earliest position of `t` at which some stop string occurs,
scanning left to right as the regex alternation of langchain's
`enforce_stop_tokens` does. -/
def firstStopIdx (stops : List Str) : Str → Option Nat
  | [] => if stopsAt stops [] then some 0 else none
  | c :: t => if stopsAt stops (c :: t) then some 0
              else (firstStopIdx stops t).map (fun n => n + 1)

/-- The external collaborator `langchain.llms.utils.enforce_stop_tokens`
applied with literal stop strings: cut the text at the first occurrence of
any stop string, or return it unchanged when no stop string occurs. -/
def enforce_stop_tokens (t : Str) (stops : List Str) : Str :=
  match firstStopIdx stops t with
  | some i => t.take i
  | none => t

/-- Text pipeline of the non-streaming branch of `HuggingfaceLLM._call`
(lines 188-201): the decoded raw backend output is stripped of a leading
prompt echo with `removeprefix` and then truncated with
`enforce_stop_tokens`. -/
def hf_call_nonstream_text (raw prompt : Str) (stops : List Str) : Str :=
  enforce_stop_tokens (dropPromptEcho raw prompt) stops

/-- Non-streaming branch of `HuggingfaceLLM._call` including the failure
behaviour of the backend primitive: the code wraps the generation call in no
handler, so a backend failure propagates unchanged, and a successful raw
output (empty or not) flows through the text pipeline. -/
def hf_call_nonstream (res : Except String Str) (prompt : Str) (stops : List Str) :
    Except String Str :=
  match res with
  | .error e => .error e
  | .ok raw => .ok (hf_call_nonstream_text raw prompt stops)

/-- Modelled from the spec: `textgen_iterator` from
`llmplus/Models/Cores/utils.py` is not under `src/`; section 4.2 of the
specification (Token-Stream Truncator) describes it.  This function computes
the concatenation of all increments the truncator yields before the terminal
sentinel: increments are accumulated into a buffer, and at the first point
where the cumulative buffer contains a stop occurrence the text before the
earliest occurrence is the final output; if the increments are exhausted
without any occurrence the whole buffer is the output. -/
def streamedText (stops : List Str) : List Str → Str → Str
  | [], buf => buf
  | inc :: rest, buf =>
    match firstStopIdx stops (buf ++ inc) with
    | some i => (buf ++ inc).take i
    | none => streamedText stops rest (buf ++ inc)

/-- Generation options stored by `HuggingfaceLLM` in `generation_config`.
Python floats are modelled as rationals; none of the verified claims depends
on rounding of float literals. -/
structure GenConfig where
  temperature : ℚ
  do_sample : Bool
  max_new_tokens : ℤ
  top_p : ℚ
  top_k : ℤ
  repetition_penalty : ℚ
deriving DecidableEq, Repr

/-- Construction of `generation_config` in `HuggingfaceLLM.__init__`
(lines 115-122): a temperature of exactly 0 is replaced by the sentinel 0.01
and sampling is disabled, any other temperature is kept with sampling
enabled. -/
def initGenerationConfig (temperature : ℚ) (max_new_tokens : ℤ) (top_p : ℚ)
    (top_k : ℤ) (repetition_penalty : ℚ) : GenConfig where
  temperature := if temperature ≠ 0 then temperature else 0.01
  do_sample := if temperature = 0 then false else true
  max_new_tokens := max_new_tokens
  top_p := top_p
  top_k := top_k
  repetition_penalty := repetition_penalty

/-- Per-call keyword overrides accepted by the kwargs loop of
`HuggingfaceLLM._call` (lines 156-165). -/
structure CallKwargs where
  temperature : Option ℚ
  max_new_tokens : Option ℤ
  top_p : Option ℚ
  top_k : Option ℤ
  repetition_penalty : Option ℚ

/-- The kwargs loop of `HuggingfaceLLM._call`: a temperature override goes
through the `v > 0` test (positive enables sampling with that value,
anything else forces the 0.01 sentinel with sampling disabled) and the four
other recognised keys overwrite their field directly.  The keys are
distinct, so the iteration order of the Python dict is immaterial. -/
def applyKwargs (g : GenConfig) (kw : CallKwargs) : GenConfig :=
  let g1 := match kw.temperature with
    | some v => if 0 < v then { g with temperature := v, do_sample := true }
                else { g with temperature := 0.01, do_sample := false }
    | none => g
  let g2 := match kw.max_new_tokens with
    | some v => { g1 with max_new_tokens := v }
    | none => g1
  let g3 := match kw.top_p with
    | some v => { g2 with top_p := v }
    | none => g2
  let g4 := match kw.top_k with
    | some v => { g3 with top_k := v }
    | none => g3
  match kw.repetition_penalty with
  | some v => { g4 with repetition_penalty := v }
  | none => g4

/-- Configuration handling of one `HuggingfaceLLM._call` invocation: the
stored config is copied (`self.generation_config.copy()`), the copy receives
the overrides, and the stored config is left as it was.  The first component
is the config used for generation, the second the stored config after the
call. -/
def hf_call_config (stored : GenConfig) (kw : CallKwargs) : GenConfig × GenConfig :=
  let gen_config := stored
  (applyKwargs gen_config kw, stored)

/-- A sample stored configuration, as built by the constructor defaults. -/
def cfgEx : GenConfig := initGenerationConfig (8/10) 2048 (95/100) 40 (11/10)

/-- Empty override set. -/
def noKwargs : CallKwargs := ⟨none, none, none, none, none⟩

lemma isPrefixOf_eq_true (l₁ l₂ : Str) : l₁.isPrefixOf l₂ = true ↔ l₁ <+: l₂ :=
  List.isPrefixOf_iff_prefix

lemma stopsAt_iff (stops : List Str) (t : Str) :
    stopsAt stops t = true ↔ ∃ s ∈ stops, s <+: t := by
  simp [stopsAt, List.any_eq_true, List.isPrefixOf_iff_prefix]

lemma firstStopIdx_le_length (stops : List Str) (t : Str) :
    ∀ i, firstStopIdx stops t = some i → i ≤ t.length := by
  induction t with
  | nil =>
    intro i h
    unfold firstStopIdx at h
    split at h <;> simp_all
  | cons c t ih =>
    intro i h
    unfold firstStopIdx at h
    split at h
    · simp at h
      omega
    · cases hr : firstStopIdx stops t with
      | none => rw [hr] at h; simp at h
      | some j =>
        rw [hr] at h
        simp only [Option.map_some'] at h
        cases h
        simpa [List.length_cons, Nat.succ_le_succ_iff] using ih j hr

lemma firstStopIdx_spec_pos (stops : List Str) (t : Str) :
    ∀ i, firstStopIdx stops t = some i → stopsAt stops (t.drop i) = true := by
  induction t with
  | nil =>
    intro i h
    unfold firstStopIdx at h
    split at h <;> simp_all
  | cons c t ih =>
    intro i h
    unfold firstStopIdx at h
    split at h
    · cases h
      simpa using (by assumption : stopsAt stops (c :: t) = true)
    · cases hr : firstStopIdx stops t with
      | none => rw [hr] at h; simp at h
      | some j =>
        rw [hr] at h
        simp only [Option.map_some'] at h
        cases h
        simpa using ih j hr

lemma firstStopIdx_spec_min (stops : List Str) (t : Str) :
    ∀ i, firstStopIdx stops t = some i → ∀ j, j < i → stopsAt stops (t.drop j) = false := by
  induction t with
  | nil =>
    intro i h
    unfold firstStopIdx at h
    split at h
    · cases h
      intro j hj
      exact absurd hj (Nat.not_lt_zero j)
    · simp at h
  | cons c t ih =>
    intro i h
    unfold firstStopIdx at h
    split at h
    · cases h
      intro j hj
      exact absurd hj (Nat.not_lt_zero j)
    · cases hr : firstStopIdx stops t with
      | none => rw [hr] at h; simp at h
      | some n =>
        rw [hr] at h
        simp only [Option.map_some'] at h
        cases h
        intro j hj
        cases j with
        | zero => simpa using (by assumption : ¬ stopsAt stops (c :: t) = true)
        | succ j' => simpa using ih n hr j' (Nat.lt_of_succ_lt_succ hj)

lemma firstStopIdx_none_spec (stops : List Str) (t : Str) :
    firstStopIdx stops t = none → ∀ i, stopsAt stops (t.drop i) = false := by
  induction t with
  | nil =>
    intro h i
    unfold firstStopIdx at h
    split at h <;> simp_all
  | cons c t ih =>
    intro h i
    unfold firstStopIdx at h
    split at h
    · simp at h
    · cases hr : firstStopIdx stops t with
      | none =>
        cases i with
        | zero => simpa using (by assumption : ¬ stopsAt stops (c :: t) = true)
        | succ i' => simpa using ih hr i'
      | some n => rw [hr] at h; simp at h

lemma firstStopIdx_eq_some_of (stops : List Str) (t : Str) :
    ∀ i, stopsAt stops (t.drop i) = true →
      (∀ j, j < i → stopsAt stops (t.drop j) = false) →
      firstStopIdx stops t = some i := by
  induction t with
  | nil =>
    intro i h1 h2
    cases i with
    | zero => unfold firstStopIdx; simp_all
    | succ i' =>
      have h0 := h2 0 (Nat.succ_pos i')
      simp at h0 h1
      exact absurd h1 (by simp [h0])
  | cons c t ih =>
    intro i h1 h2
    cases i with
    | zero =>
      unfold firstStopIdx
      simp at h1
      simp [h1]
    | succ i' =>
      have h0 := h2 0 (Nat.succ_pos i')
      simp at h0
      unfold firstStopIdx
      rw [if_neg (by simp [h0])]
      have : firstStopIdx stops t = some i' := by
        apply ih i' (by simpa using h1)
        intro j hj
        simpa using h2 (j + 1) (Nat.succ_lt_succ hj)
      rw [this]
      rfl

lemma stopsAt_eq_false (stops : List Str) (t : Str) :
    stopsAt stops t = false ↔ ∀ s ∈ stops, ¬ s <+: t := by
  simp [stopsAt, List.any_eq_false, List.isPrefixOf_iff_prefix]

lemma prefix_append_of_le (s a b : Str) (h : s <+: a ++ b) (hl : s.length ≤ a.length) :
    s <+: a := by
  rw [List.prefix_iff_eq_take] at h ⊢
  rwa [List.take_append_eq_append_take, Nat.sub_eq_zero_of_le hl, List.take_zero,
    List.append_nil] at h

lemma firstStopIdx_single_append (s u v : Str) (i : Nat)
    (h : firstStopIdx [s] u = some i) : firstStopIdx [s] (u ++ v) = some i := by
  have hle : i ≤ u.length := firstStopIdx_le_length _ _ i h
  have hpos := firstStopIdx_spec_pos _ _ i h
  have hmin := firstStopIdx_spec_min _ _ i h
  rw [stopsAt_iff] at hpos
  obtain ⟨s', hs', hpre⟩ := hpos
  simp only [List.mem_singleton] at hs'
  subst hs'
  have hslen : s'.length ≤ u.length - i := by
    simpa [List.length_drop] using hpre.length_le
  apply firstStopIdx_eq_some_of
  · rw [stopsAt_iff]
    refine ⟨s', List.mem_singleton_self _, ?_⟩
    rw [List.drop_append_eq_append_drop, Nat.sub_eq_zero_of_le hle, List.drop_zero]
    exact hpre.trans (List.prefix_append _ _)
  · intro j hj
    rw [stopsAt_eq_false]
    intro s'' hs''
    simp only [List.mem_singleton] at hs''
    subst hs''
    intro hcon
    have hju : j ≤ u.length := le_trans (Nat.le_of_lt hj) hle
    rw [List.drop_append_eq_append_drop, Nat.sub_eq_zero_of_le hju, List.drop_zero] at hcon
    by_cases hc : s''.length ≤ u.length - j
    · have hpj : s'' <+: u.drop j :=
        prefix_append_of_le _ _ _ hcon (by simpa [List.length_drop] using hc)
      have hm := hmin j hj
      rw [stopsAt_eq_false] at hm
      exact hm s'' (List.mem_singleton_self _) hpj
    · omega

lemma streamedText_eq_enforce (s : Str) (incs : List Str) :
    ∀ buf, firstStopIdx [s] buf = none →
      streamedText [s] incs buf = enforce_stop_tokens (buf ++ incs.flatten) [s] := by
  induction incs with
  | nil =>
    intro buf h
    simp [streamedText, enforce_stop_tokens, h]
  | cons inc rest ih =>
    intro buf h
    cases hf : firstStopIdx [s] (buf ++ inc) with
    | some i =>
      have hle : i ≤ (buf ++ inc).length := firstStopIdx_le_length _ _ i hf
      have happ : firstStopIdx [s] ((buf ++ inc) ++ rest.flatten) = some i :=
        firstStopIdx_single_append _ _ _ i hf
      have hrhs : enforce_stop_tokens (buf ++ (inc :: rest).flatten) [s]
          = ((buf ++ inc) ++ rest.flatten).take i := by
        rw [List.flatten_cons, ← List.append_assoc]
        unfold enforce_stop_tokens
        rw [happ]
      have htake : ((buf ++ inc) ++ rest.flatten).take i = (buf ++ inc).take i := by
        rw [List.take_append_eq_append_take, Nat.sub_eq_zero_of_le hle, List.take_zero,
          List.append_nil]
      simp only [streamedText, hf]
      rw [hrhs, htake]
    | none =>
      simp only [streamedText, hf]
      rw [List.flatten_cons, ← List.append_assoc]
      exact ih (buf ++ inc) hf

lemma insertByLen_ne_nil (x : List Int) (l : List (List Int)) : insertByLen x l ≠ [] := by
  cases l with
  | nil => simp [insertByLen]
  | cons y ys =>
    unfold insertByLen
    split <;> simp

lemma sortByLen_eq_nil_iff (l : List (List Int)) : sortByLen l = [] ↔ l = [] := by
  cases l with
  | nil => simp [sortByLen]
  | cons x xs =>
    simp only [sortByLen, List.foldr_cons]
    constructor
    · intro h
      exact absurd h (insertByLen_ne_nil x _)
    · intro h
      cases h

lemma mem_insertByLen (a x : List Int) (l : List (List Int)) :
    a ∈ insertByLen x l ↔ a = x ∨ a ∈ l := by
  induction l with
  | nil => simp [insertByLen]
  | cons y ys ih =>
    unfold insertByLen
    split
    · simp
    · simp [ih]
      tauto

lemma mem_sortByLen (a : List Int) (l : List (List Int)) : a ∈ sortByLen l ↔ a ∈ l := by
  induction l with
  | nil => simp [sortByLen]
  | cons x xs ih =>
    simp only [sortByLen, List.foldr_cons] at ih ⊢
    rw [mem_insertByLen, ih, List.mem_cons]

lemma decode_of_mem_effective (tk : Tok) (w : Str) (c : List Int)
    (hc : c ∈ effectiveCandidates tk w) : tk.decode c = w := by
  simp only [effectiveCandidates] at hc
  rcases List.mem_append.mp hc with h | h
  · simpa using List.mem_takeWhile_imp h
  · simpa using List.mem_takeWhile_imp h

lemma getMinIds_mem (tk : Tok) (w : Str) (c : List Int) (h : getMinIds tk w = some c) :
    c ∈ effectiveCandidates tk w := by
  unfold getMinIds at h
  have hm : c ∈ sortByLen (effectiveCandidates tk w) := by
    cases hs : sortByLen (effectiveCandidates tk w) with
    | nil => rw [hs] at h; simp at h
    | cons x xs =>
      rw [hs] at h
      simp only [List.head?_cons, Option.some.injEq] at h
      subst h
      exact List.mem_cons_self _ _
  exact (mem_sortByLen _ _).mp hm

lemma getMinIds_ne_nil (tk : Tok) (w : Str) (c : List Int) (h : getMinIds tk w = some c)
    (hdec : tk.decode [] ≠ w) : c ≠ [] := by
  intro hc
  subst hc
  exact hdec (decode_of_mem_effective tk w [] (getMinIds_mem tk w [] h))

lemma mkStopIds_mem (tk : Tok) : ∀ (ws : List Str) (ids : List (List Int)),
    mkStopIds tk ws = some ids →
      (∀ i ∈ ids, ∃ w ∈ ws, getMinIds tk w = some i) ∧
      (∀ w ∈ ws, ∀ c, getMinIds tk w = some c → c ∈ ids) := by
  intro ws
  induction ws with
  | nil =>
    intro ids h
    simp only [mkStopIds, Option.some.injEq] at h
    subst h
    simp
  | cons w ws ih =>
    intro ids h
    unfold mkStopIds at h
    cases hg : getMinIds tk w with
    | none => rw [hg] at h; simp at h
    | some i =>
      rw [hg] at h
      cases hm : mkStopIds tk ws with
      | none => rw [hm] at h; simp at h
      | some is =>
        rw [hm] at h
        simp only [Option.some.injEq] at h
        subst h
        obtain ⟨ih1, ih2⟩ := ih is hm
        constructor
        · intro j hj
          rcases List.mem_cons.mp hj with rfl | hj'
          · exact ⟨w, List.mem_cons_self _ _, hg⟩
          · obtain ⟨w', hw', hgw'⟩ := ih1 j hj'
            exact ⟨w', List.mem_cons_of_mem _ hw', hgw'⟩
        · intro w' hw' c hc
          rcases List.mem_cons.mp hw' with rfl | hw''
          · rw [hg] at hc
            cases hc
            exact List.mem_cons_self _ _
          · exact List.mem_cons_of_mem _ (ih2 w' hw'' c hc)

lemma kwsCheck_iff (input i : List Int) (hne : i ≠ []) :
    kwsCheck input i = true ↔ i <:+ input := by
  unfold kwsCheck
  by_cases hl : i.length ≤ input.length
  · rw [if_pos hl]
    unfold pyLastSlice
    rw [if_neg (by simpa [List.length_eq_zero] using hne)]
    rw [beq_iff_eq, List.suffix_iff_eq_drop]
    exact ⟨fun h => h.symm, fun h => h.symm⟩
  · rw [if_neg hl]
    constructor
    · intro h
      exact absurd h (by simp)
    · intro hsuf
      exact absurd hsuf.length_le hl

lemma enforce_prefix_of (t : Str) (stops : List Str) : enforce_stop_tokens t stops <+: t := by
  simp only [enforce_stop_tokens]
  cases h : firstStopIdx stops t with
  | some i => exact ⟨t.drop i, List.take_append_drop i t⟩
  | none => exact List.prefix_refl t

lemma enforce_no_stop_inside (t : Str) (stops : List Str) (s : Str) (hs : s ∈ stops)
    (hne : s ≠ []) (i : Nat) : ¬ s <+: (enforce_stop_tokens t stops).drop i := by
  simp only [enforce_stop_tokens]
  cases h : firstStopIdx stops t with
  | none =>
    intro hcon
    have hfalse := firstStopIdx_none_spec stops t h i
    rw [stopsAt_eq_false] at hfalse
    exact hfalse s hs hcon
  | some j =>
    intro hcon
    have hij : i < j := by
      by_contra hge
      push_neg at hge
      have h1 := hcon.length_le
      simp only [List.length_drop, List.length_take] at h1
      have h2 : 0 < s.length := List.length_pos.mpr hne
      omega
    have heq : (t.take j).drop i = (t.drop i).take (j - i) := List.drop_take j i t
    rw [heq] at hcon
    have hpre : s <+: t.drop i :=
      hcon.trans ⟨(t.drop i).drop (j - i), List.take_append_drop _ _⟩
    have hmin := firstStopIdx_spec_min stops t j h i hij
    rw [stopsAt_eq_false] at hmin
    exact hmin s hs hpre

lemma enforce_stop_at_cut (t : Str) (stops : List Str)
    (h : enforce_stop_tokens t stops ≠ t) :
    ∃ s ∈ stops, s <+: t.drop (enforce_stop_tokens t stops).length := by
  cases hf : firstStopIdx stops t with
  | none =>
    exfalso
    apply h
    simp only [enforce_stop_tokens, hf]
  | some i =>
    have hr : enforce_stop_tokens t stops = t.take i := by
      simp only [enforce_stop_tokens, hf]
    have hle : i ≤ t.length := firstStopIdx_le_length stops t i hf
    have hlen : (t.take i).length = i := by
      simp only [List.length_take]
      omega
    rw [hr, hlen]
    have hpos := firstStopIdx_spec_pos stops t i hf
    rw [stopsAt_iff] at hpos
    exact hpos

lemma enforce_nil (stops : List Str) : enforce_stop_tokens [] stops = [] := by
  simp only [enforce_stop_tokens]
  cases h : firstStopIdx stops [] with
  | some i => simp
  | none => rfl

lemma hf_text_nil (prompt : Str) (stops : List Str) :
    hf_call_nonstream_text [] prompt stops = [] := by
  unfold hf_call_nonstream_text dropPromptEcho
  split <;> simp [enforce_nil]


/-- C1: the claim states that the canonical stop-id sequence returned by
`get_min_ids` decodes back to the stop string and that no strictly shorter
trimming of the naive encoding also decodes to the stop string.  At the
concrete tokenizer `tok1` the code returns the full encoding `[1, 2, 3]`
although the trimming `[1, 2]` (the encoding with its last id removed) also
decodes exactly to the stop string and is strictly shorter: the second loop
of `get_min_ids` evaluates `ids[:-i]` with `i = 0`, which in Python is the
empty slice, so it breaks immediately and tail trimmings are never
considered. -/
theorem c1_min_ids_not_minimal :
    getMinIds tok1 ['a', 'b'] = some [1, 2, 3] ∧
    tok1.encode ['a', 'b'] = [1, 2, 3] ∧
    tok1.decode ((tok1.encode ['a', 'b']).take 2) = ['a', 'b'] ∧
    ((tok1.encode ['a', 'b']).take 2).length < 3 := by decide

/-- C2: `KeywordsStoppingCriteria.__call__` returns `true` exactly when the
generated id sequence ends with the canonical stop-id sequence of some stop
word of the stop specification, for any stop-word list whose construction
succeeded and any tokenizer that does not decode the empty id list to one of
the stop words (so every canonical sequence is non-empty); in particular it
returns `false` when the input is shorter than every canonical sequence or
differs from each of them on the suffix of matching length. -/
theorem c2_call_iff_suffix (tk : Tok) (ws : List Str) (stopIds : List (List Int))
    (input : List Int) (hmk : mkStopIds tk ws = some stopIds)
    (hdec : ∀ w ∈ ws, tk.decode [] ≠ w) :
    kwsCall stopIds input = true ↔
      ∃ w ∈ ws, ∃ c, getMinIds tk w = some c ∧ c <:+ input := by
  obtain ⟨h1, h2⟩ := mkStopIds_mem tk ws stopIds hmk
  unfold kwsCall
  rw [List.any_eq_true]
  constructor
  · rintro ⟨i, hi, hchk⟩
    obtain ⟨w, hw, hg⟩ := h1 i hi
    have hne : i ≠ [] := getMinIds_ne_nil tk w i hg (hdec w hw)
    exact ⟨w, hw, i, hg, (kwsCheck_iff input i hne).mp hchk⟩
  · rintro ⟨w, hw, c, hg, hsuf⟩
    have hne : c ≠ [] := getMinIds_ne_nil tk w c hg (hdec w hw)
    exact ⟨c, h2 w hw c hg, (kwsCheck_iff input c hne).mpr hsuf⟩

/-- Witness for C2 at the concrete tokenizer `tok2` with stop word `"ab"`,
canonical sequence `[5, 6]` and input `[9, 5, 6]`. -/
theorem c2_call_iff_suffix_witness : kwsCall [[5, 6]] [9, 5, 6] = true :=
  (c2_call_iff_suffix tok2 [['a', 'b']] [[5, 6]] [9, 5, 6] (by decide) (by decide)).mpr
    ⟨['a', 'b'], by decide, [5, 6], by decide, ⟨[9], rfl⟩⟩

/-- C3: the claim states that the derivation also collects, for each
suffix-removal count starting at 0, the remaining prefix of the full
encoding while it still decodes exactly, so a tail-trimmed prefix that
decodes exactly must be in the candidate set.  At `tok1` the prefix
`[1, 2]` of the encoding `[1, 2, 3]` decodes exactly to the stop string yet
the candidate set is `[[1, 2, 3]]` alone: the loop computes `ids[:-i]`,
which at its first iteration `i = 0` is the empty slice, so it breaks before
producing any tail-trimmed prefix. -/
theorem c3_tail_candidates_missing :
    effectiveCandidates tok1 ['a', 'b'] = [[1, 2, 3]] ∧
    tok1.decode ((tok1.encode ['a', 'b']).take 2) = ['a', 'b'] ∧
    ((tok1.encode ['a', 'b']).take 2) ∉ effectiveCandidates tok1 ['a', 'b'] := by decide

/-- C4: when the candidate set of a stop string is empty, `get_min_ids`
does not return an id sequence: the lookup `effective[0]` fails (the error
condition the specification names `InvalidStopSequence`, modelled by
`none`), rather than silently producing a sequence that never matches. -/
theorem c4_empty_candidates_error (tk : Tok) (w : Str) :
    effectiveCandidates tk w = [] ↔ getMinIds tk w = none := by
  unfold getMinIds
  rw [List.head?_eq_none_iff, sortByLen_eq_nil_iff]

/-- Witness for C4 at the degenerate tokenizer `tok3`. -/
theorem c4_empty_candidates_error_witness : getMinIds tok3 ['a'] = none :=
  (c4_empty_candidates_error tok3 ['a']).mp (by decide)

/-- C5: in the non-streaming path of `HuggingfaceLLM._call` the returned
text is the decoded raw output with a leading prompt echo stripped when
present, truncated at the first occurrence of any stop string: the result is
a prefix of the stripped text, no non-empty stop string occurs anywhere
inside the result, and whenever anything was cut off some stop string occurs
in the stripped text exactly at the cut position. -/
theorem c5_nonstream_truncation (raw prompt : Str) (stops : List Str) :
    (prompt.isPrefixOf raw = true → dropPromptEcho raw prompt = raw.drop prompt.length) ∧
    (prompt.isPrefixOf raw = false → dropPromptEcho raw prompt = raw) ∧
    hf_call_nonstream_text raw prompt stops <+: dropPromptEcho raw prompt ∧
    (∀ s ∈ stops, s ≠ [] → ∀ i, ¬ s <+: (hf_call_nonstream_text raw prompt stops).drop i) ∧
    (hf_call_nonstream_text raw prompt stops ≠ dropPromptEcho raw prompt →
      ∃ s ∈ stops,
        s <+: (dropPromptEcho raw prompt).drop
          (hf_call_nonstream_text raw prompt stops).length) := by
  refine ⟨?_, ?_, ?_, ?_, ?_⟩
  · intro h
    unfold dropPromptEcho
    rw [if_pos h]
  · intro h
    unfold dropPromptEcho
    rw [if_neg (by simp [h])]
  · exact enforce_prefix_of _ _
  · intro s hs hne i
    exact enforce_no_stop_inside _ _ s hs hne i
  · exact enforce_stop_at_cut _ _

/-- Witness for C5 at a concrete raw output with a prompt echo and one stop
string. -/
theorem c5_nonstream_truncation_witness :
    hf_call_nonstream_text ['p', 'x', 's', 'y'] ['p'] [['s']] <+:
      dropPromptEcho ['p', 'x', 's', 'y'] ['p'] :=
  (c5_nonstream_truncation ['p', 'x', 's', 'y'] ['p'] [['s']]).2.2.1

/-- C6 counterexample: when the backend primitive succeeds with empty
output, the non-streaming call returns normally with the empty string — it
does not fail, contradicting the claim that it never returns normally in
that case. -/
theorem c6_empty_output_returns_ok :
    hf_call_nonstream (Except.ok []) ['p'] [['s']] = Except.ok [] := rfl

/-- C6 amended: the non-streaming call wraps the generation primitive in no
handler, so a backend failure propagates unchanged to the caller (no
`BackendError` wrapping exists in the code), and a backend success with
empty output is returned normally as the empty string instead of failing. -/
theorem c6_error_propagation (e : String) (prompt : Str) (stops : List Str) :
    hf_call_nonstream (Except.error e) prompt stops = Except.error e ∧
    hf_call_nonstream (Except.ok []) prompt stops = Except.ok [] := by
  constructor
  · rfl
  · show Except.ok (hf_call_nonstream_text [] prompt stops) = Except.ok []
    rw [hf_text_nil]

/-- C7: a temperature of exactly 0 forces deterministic decoding both when
constructing the adapter and as a per-call override: the resulting options
carry the 0.01 sentinel with sampling disabled, whatever the stored defaults
are. -/
theorem c7_zero_temperature_deterministic :
    (∀ (m : ℤ) (p : ℚ) (k : ℤ) (r : ℚ),
      (initGenerationConfig 0 m p k r).temperature = 0.01 ∧
      (initGenerationConfig 0 m p k r).do_sample = false) ∧
    (∀ g : GenConfig,
      (applyKwargs g { noKwargs with temperature := some 0 }).temperature = 0.01 ∧
      (applyKwargs g { noKwargs with temperature := some 0 }).do_sample = false) := by
  constructor
  · intro m p k r
    constructor <;> simp [initGenerationConfig]
  · intro g
    constructor <;> simp [applyKwargs, noKwargs]

/-- C8: per-call keyword overrides take field-by-field precedence over the
adapter-stored defaults in the options used for the generation (a
temperature override going through the `v > 0` test of the code), fields
without an override keep their stored value, and the stored configuration
after the call is unchanged (the kwargs are applied to a copy). -/
theorem c8_override_precedence (g : GenConfig) (kw : CallKwargs) :
    (hf_call_config g kw).2 = g ∧
    (∀ v, kw.temperature = some v →
      (hf_call_config g kw).1.temperature = (if 0 < v then v else 0.01) ∧
      (hf_call_config g kw).1.do_sample = (if 0 < v then true else false)) ∧
    (kw.temperature = none →
      (hf_call_config g kw).1.temperature = g.temperature ∧
      (hf_call_config g kw).1.do_sample = g.do_sample) ∧
    (∀ v, kw.max_new_tokens = some v → (hf_call_config g kw).1.max_new_tokens = v) ∧
    (kw.max_new_tokens = none → (hf_call_config g kw).1.max_new_tokens = g.max_new_tokens) ∧
    (∀ v, kw.top_p = some v → (hf_call_config g kw).1.top_p = v) ∧
    (kw.top_p = none → (hf_call_config g kw).1.top_p = g.top_p) ∧
    (∀ v, kw.top_k = some v → (hf_call_config g kw).1.top_k = v) ∧
    (kw.top_k = none → (hf_call_config g kw).1.top_k = g.top_k) ∧
    (∀ v, kw.repetition_penalty = some v → (hf_call_config g kw).1.repetition_penalty = v) ∧
    (kw.repetition_penalty = none →
      (hf_call_config g kw).1.repetition_penalty = g.repetition_penalty) := by
  rcases kw with ⟨t, m, p, k, r⟩
  rcases t with _ | t <;> rcases m with _ | m <;> rcases p with _ | p <;>
    rcases k with _ | k <;> rcases r with _ | r <;>
    refine ⟨rfl, ?_, ?_, ?_, ?_, ?_, ?_, ?_, ?_, ?_, ?_⟩ <;>
    simp [hf_call_config, applyKwargs, apply_ite] <;>
    split <;> simp_all

/-- Witness for C8: a concrete call overriding only `max_new_tokens`. -/
theorem c8_override_precedence_witness :
    (hf_call_config cfgEx { noKwargs with max_new_tokens := some 5 }).1.max_new_tokens = 5 ∧
    (hf_call_config cfgEx { noKwargs with max_new_tokens := some 5 }).2 = cfgEx :=
  ⟨(c8_override_precedence cfgEx { noKwargs with max_new_tokens := some 5 }).2.2.2.1 5 rfl,
    (c8_override_precedence cfgEx { noKwargs with max_new_tokens := some 5 }).1⟩

/-- C9 counterexample: with two stop strings, one of whose earliest
occurrence in the full text spans an increment boundary, the concatenation
of the streamed increments differs from the blocking-mode output on the very
same underlying text: the stream yields `"xa"` (the buffer `"xab"` already
contains the stop `"b"`) while the blocking path returns `"x"` (in the full
text `"xabcb"` the stop `"abc"` starts earlier). -/
theorem c9_stream_blocking_cex :
    streamedText [['a', 'b', 'c'], ['b']] [['x', 'a', 'b'], ['c', 'b']] [] = ['x', 'a'] ∧
    hf_call_nonstream_text ['p', 'x', 'a', 'b', 'c', 'b'] ['p']
      [['a', 'b', 'c'], ['b']] = ['x'] ∧
    ['p'] ++ ([['x', 'a', 'b'], ['c', 'b']] : List Str).flatten
      = ['p', 'x', 'a', 'b', 'c', 'b'] ∧
    (['x', 'a'] : Str) ≠ ['x'] := by decide

/-- C9 amended: for a deterministic backend producing the same text on both
paths (the blocking raw output is the prompt echo followed by the
concatenation of the streamed increments) and a stop set containing a single
non-empty stop string, the concatenation of the streamed increments equals
the blocking-mode returned string. -/
theorem c9_stream_blocking_single (s : Str) (incs : List Str) (prompt : Str)
    (hs : s ≠ []) :
    streamedText [s] incs [] = hf_call_nonstream_text (prompt ++ incs.flatten) prompt [s] := by
  have hstrip : dropPromptEcho (prompt ++ incs.flatten) prompt = incs.flatten := by
    unfold dropPromptEcho
    rw [if_pos ((isPrefixOf_eq_true _ _).mpr (List.prefix_append _ _)), List.drop_left]
  unfold hf_call_nonstream_text
  rw [hstrip]
  have h0 : firstStopIdx [s] ([] : Str) = none := by
    cases s with
    | nil => exact absurd rfl hs
    | cons c cs => rfl
  have h := streamedText_eq_enforce s incs [] h0
  rwa [List.nil_append] at h

/-- Witness for C9 at a single stop string split across two increments. -/
theorem c9_stream_blocking_single_witness :
    streamedText [['s']] [['x', 's'], ['y']] [] =
      hf_call_nonstream_text (['p'] ++ ([['x', 's'], ['y']] : List Str).flatten)
        ['p'] [['s']] :=
  c9_stream_blocking_single ['s'] [['x', 's'], ['y']] ['p'] (by decide)

/-- C10: a per-call temperature override `v ≤ 0` (including negative values)
is silently mapped to the 0.01 sentinel with sampling disabled — the kwargs
loop is total and rejects nothing — while `v > 0` enables sampling with
temperature `v`. -/
theorem c10_nonpositive_temperature (g : GenConfig) (v : ℚ) :
    (v ≤ 0 →
      (applyKwargs g { noKwargs with temperature := some v }).temperature = 0.01 ∧
      (applyKwargs g { noKwargs with temperature := some v }).do_sample = false) ∧
    (0 < v →
      (applyKwargs g { noKwargs with temperature := some v }).temperature = v ∧
      (applyKwargs g { noKwargs with temperature := some v }).do_sample = true) := by
  constructor
  · intro hv
    have hnv : ¬ (0 < v) := not_lt.mpr hv
    constructor <;> simp [applyKwargs, noKwargs, hnv]
  · intro hv
    constructor <;> simp [applyKwargs, noKwargs, hv]

/-- Witness for C10 at the negative override `-1`. -/
theorem c10_nonpositive_temperature_witness :
    (applyKwargs cfgEx { noKwargs with temperature := some (-1) }).temperature = 0.01 ∧
    (applyKwargs cfgEx { noKwargs with temperature := some (-1) }).do_sample = false :=
  (c10_nonpositive_temperature cfgEx (-1)).1 (by decide)
